import Mathlib

/-!
Verification of `ingress/controllers/nginx/pkg/ingress/controller/util.go`
(kubernetes/contrib nginx ingress controller utilities).

Go strings are embedded as `List Char` (`GoStr`); the helpers from Go's
`strings` package that the source uses (`TrimSuffix` with a one-character
suffix, `Split` with a one-character separator) are defined below and the
source functions are translated on top of them.  The external work-queue /
rate-limiter library (`k8s.io/kubernetes/pkg/util/workqueue`) is not part of
this repository's source, so it is modelled from the specification.
-/

namespace ContribNginx

/-- A Go string, embedded as a list of characters. -/
abbrev GoStr := List Char

/-- Go `strings.TrimSuffix(s, ".")`: drop one trailing `'.'` if present. -/
def trimSuffixDot (s : GoStr) : GoStr :=
  if s.getLast? = some '.' then s.dropLast else s

/-- Go `strings.Split(s, sep)` for a one-character separator: splitting the
empty string yields `[""]`; otherwise the string is cut at every occurrence
of `sep`. -/
def goSplit (sep : Char) : GoStr → List GoStr
  | [] => [[]]
  | c :: rest =>
    let r := goSplit sep rest
    if c = sep then [] :: r else (c :: r.headI) :: r.tail

/-- The indexed loop of `matchHostnames`: walk `patternParts` with index `i`;
a `"*"` pattern label is skipped at index 0, every other position must equal
`hostParts[i]`. -/
def matchLoop (hostParts : List GoStr) : Nat → List GoStr → Bool
  | _, [] => true
  | i, p :: ps =>
    if i = 0 ∧ p = ['*'] then matchLoop hostParts (i + 1) ps
    else if p ≠ hostParts.getD i [] then false
    else matchLoop hostParts (i + 1) ps

/-- Body of `matchHostnames` after the two `TrimSuffix` normalisations. -/
def matchTrimmed (pattern host : GoStr) : Bool :=
  if pattern.length = 0 ∨ host.length = 0 then false
  else
    let patternParts := goSplit '.' pattern
    let hostParts := goSplit '.' host
    if patternParts.length ≠ hostParts.length then false
    else matchLoop hostParts 0 patternParts

/-- Function `matchHostnames` from util.go: strip one trailing dot from each input,
fail on empty strings, split on `"."`, require equal label counts, then run
the label comparison loop. -/
def matchHostnames (pattern host : GoStr) : Bool :=
  matchTrimmed (trimSuffixDot pattern) (trimSuffixDot host)

/-- Function `isHostValid` from util.go: scan the certificate names in order and
succeed on the first `matchHostnames` hit. -/
def isHostValid (host : GoStr) : List GoStr → Bool
  | [] => false
  | cn :: cns => if matchHostnames cn host then true else isHostValid host cns

/-- Function `parseNsName` from util.go: split on `"/"`; exactly two pieces are
required, otherwise an error message naming the offending input is returned
(the Go message is `invalid format (namespace/name) found in '<input>'`; the
model carries the same words with the input appended). -/
def parseNsName (input : GoStr) : Except GoStr (GoStr × GoStr) :=
  let nsName := goSplit '/' input
  if nsName.length ≠ 2 then
    .error ("invalid format (namespace/name) found in ".toList ++ input)
  else
    .ok (nsName.getD 0 [], nsName.getD 1 [])

/-- Path constant `snakeOilPem` from util.go. -/
def snakeOilPem : String := "/etc/ssl/certs/ssl-cert-snakeoil.pem"

/-- Path constant `snakeOilKey` from util.go. -/
def snakeOilKey : String := "/etc/ssl/private/ssl-cert-snakeoil.key"

/-- Function `getFakeSSLCert` from util.go, with the filesystem abstracted as a map
from path to `Option` contents (`none` = the read fails): read the
certificate, then the key; on either failure return the pair of empty
strings. -/
def getFakeSSLCert (readFile : String → Option GoStr) : GoStr × GoStr :=
  match readFile snakeOilPem with
  | none => ([], [])
  | some cert =>
    match readFile snakeOilKey with
    | none => ([], [])
    | some key => (cert, key)

/-!
## Task queue

`taskQueue` in util.go wraps `workqueue.RateLimitingInterface` from
`k8s.io/kubernetes`, whose source is not part of this repository.  The queue
and its rate limiter are therefore modelled from the specification; the
functions `enqueue`, `requeue`, `worker` and `shutdown` of util.go are
translated on top of that model.
-/

/-- Modelled from the spec: the external rate-limiting work queue
(`workqueue.RateLimitingInterface`, not in this repository's source).
`pending` is the FIFO of string keys not yet dequeued (`add` keeps the dedup
invariant: a key already pending is not inserted again); `shuttingDown` is
set by `ShutDown`; `failures` is the rate limiter's per-key failure count. -/
structure WorkQueue where
  pending : List String
  shuttingDown : Bool
  failures : String → Nat

/-- Modelled from the spec: `Add` ignores a key that is already pending,
otherwise appends it at the back. -/
def WorkQueue.add (q : WorkQueue) (key : String) : WorkQueue :=
  if key ∈ q.pending then q else { q with pending := q.pending ++ [key] }

/-- Modelled from the spec: the per-key exponential-backoff delay with
ceiling, `min (base * 2 ^ failureCount) maxDelay`. -/
def backoffDelay (base maxDelay : Nat) (q : WorkQueue) (key : String) : Nat :=
  min (base * 2 ^ q.failures key) maxDelay

/-- Modelled from the spec: `AddRateLimited` computes the key's delay from
its current failure count, bumps that count, and enqueues the key (dedup as
in `add`).  The returned number is the computed redelivery delay. -/
def WorkQueue.addRateLimited (q : WorkQueue) (base maxDelay : Nat) (key : String) :
    WorkQueue × Nat :=
  (WorkQueue.add
      { q with failures := fun k => if k = key then q.failures key + 1 else q.failures k } key,
   backoffDelay base maxDelay q key)

/-- Modelled from the spec: `Forget` clears the key's failure count (and with
it any pending backoff state of the rate limiter). -/
def WorkQueue.forget (q : WorkQueue) (key : String) : WorkQueue :=
  { q with failures := fun k => if k = key then 0 else q.failures k }

/-- Modelled from the spec: `ShutDown` marks the queue closed. -/
def WorkQueue.shutDown (q : WorkQueue) : WorkQueue :=
  { q with shuttingDown := true }

/-- Result of a `Get` call: the next key (with the queue state after removing
it), the quit signal, or blocking because the queue is empty and open. -/
inductive GetResult where
  | item (key : String) (rest : WorkQueue)
  | quit
  | wait

/-- Modelled from the spec: `Get` pops the head of the FIFO; on an empty
queue it returns the quit signal when the queue is shut down and otherwise
blocks. -/
def WorkQueue.get (q : WorkQueue) : GetResult :=
  match q.pending with
  | key :: rest => .item key { q with pending := rest }
  | [] => if q.shuttingDown then .quit else .wait

/-- Function `requeue` from util.go: `t.queue.AddRateLimited(key)`. -/
def requeue (base maxDelay : Nat) (q : WorkQueue) (key : String) : WorkQueue :=
  (q.addRateLimited base maxDelay key).1

/-- Function `enqueue` from util.go: compute the object's key with `keyFunc` (here
abstracted as `keyOf`); on error just return (the Go code logs and returns),
otherwise `Add` it. -/
def enqueue {α : Type} (keyOf : α → Option String) (q : WorkQueue) (obj : α) : WorkQueue :=
  match keyOf obj with
  | none => q
  | some key => q.add key

/-- State of the worker goroutine together with the queue: `workerDone` is
the one-shot channel of util.go (`true` = closed); `syncLog` records every
key passed to the `sync` callback, in order. -/
structure TaskState where
  q : WorkQueue
  workerDone : Bool
  syncLog : List String

/-- Outcome of one iteration of the worker loop. -/
inductive StepResult where
  | next (s : TaskState)
  | exit (s : TaskState)
  | wait

/-- One iteration of `worker` from util.go, with the sync callback abstracted
as `sync : String → Bool` (`true` = no error): `Get`; on quit close
`workerDone` and return; otherwise call `sync key`, requeue the key on error
and `Forget` it on success, then loop. -/
def workerStep (base maxDelay : Nat) (sync : String → Bool) (s : TaskState) : StepResult :=
  match s.q.get with
  | .quit => .exit { s with workerDone := true }
  | .wait => .wait
  | .item key q' =>
    if sync key then
      .next { s with q := q'.forget key, syncLog := s.syncLog ++ [key] }
    else
      .next { s with q := requeue base maxDelay q' key, syncLog := s.syncLog ++ [key] }

/-- Outcome of running the worker loop for a bounded number of iterations. -/
inductive RunResult where
  | exited (s : TaskState)
  | blockedOn (s : TaskState)
  | fuelOut (s : TaskState)

/-- The worker loop of util.go run for at most `fuel` iterations. -/
def workerRun (base maxDelay : Nat) (sync : String → Bool) : Nat → TaskState → RunResult
  | 0, s => .fuelOut s
  | fuel + 1, s =>
    match workerStep base maxDelay sync s with
    | .exit s' => .exited s'
    | .wait => .blockedOn s
    | .next s' => workerRun base maxDelay sync fuel s'

/-- The first half of `shutdown` from util.go: `t.queue.ShutDown()`.  The
second half, `<-t.workerDone`, returns exactly when the worker loop has
closed `workerDone`, i.e. when `workerRun` from this state reaches
`RunResult.exited`. -/
def shutdownStart (s : TaskState) : TaskState :=
  { s with q := s.q.shutDown }

/-- Operation `add` applied `n` times with the same key. -/
def addTimes (q : WorkQueue) (key : String) : Nat → WorkQueue
  | 0 => q
  | n + 1 => (addTimes q key n).add key

/-- The specification's description of `matchHostnames`, written from its
words: after stripping a single trailing `"."` from each input both strings
are non-empty, splitting both on `"."` yields equal label counts, and at
every label position the labels are equal, except that a pattern whose first
label is exactly `"*"` matches any first label of the host. -/
def specMatchHostnames (pattern host : GoStr) : Prop :=
  trimSuffixDot pattern ≠ [] ∧ trimSuffixDot host ≠ [] ∧
  (goSplit '.' (trimSuffixDot pattern)).length = (goSplit '.' (trimSuffixDot host)).length ∧
  ∀ i, i < (goSplit '.' (trimSuffixDot pattern)).length →
    (i = 0 ∧ (goSplit '.' (trimSuffixDot pattern)).getD i [] = ['*']) ∨
    (goSplit '.' (trimSuffixDot pattern)).getD i [] = (goSplit '.' (trimSuffixDot host)).getD i []

/-- A fresh, empty work queue (as built by `NewTaskQueue`). -/
def emptyQueue : WorkQueue :=
  { pending := [], shuttingDown := false, failures := fun _ => 0 }

/-- A task-queue state with an empty queue and the worker still running. -/
def initialTask : TaskState :=
  { q := emptyQueue, workerDone := false, syncLog := [] }

/-- The state after shutting `initialTask` down and letting the worker see
the quit signal. -/
def doneTask : TaskState :=
  { q := { pending := [], shuttingDown := true, failures := fun _ => 0 },
    workerDone := true, syncLog := [] }

/-- A task-queue state holding the single pending key `"a"`. -/
def oneKeyTask : TaskState :=
  { q := { pending := ["a"], shuttingDown := false, failures := fun _ => 0 },
    workerDone := false, syncLog := [] }

/-! ## Lemmas about the string helpers -/

theorem goSplit_cons_self (sep : Char) (rest : GoStr) :
    goSplit sep (sep :: rest) = [] :: goSplit sep rest := by
  simp [goSplit]

theorem goSplit_cons_ne (sep c : Char) (rest : GoStr) (h : ¬c = sep) :
    goSplit sep (c :: rest) =
      (c :: (goSplit sep rest).headI) :: (goSplit sep rest).tail := by
  simp [goSplit, h]

theorem goSplit_ne_nil (sep : Char) (s : GoStr) : goSplit sep s ≠ [] := by
  cases s with
  | nil => simp [goSplit]
  | cons c rest => by_cases hc : c = sep <;> simp [goSplit, hc]

theorem goSplit_length (sep : Char) (s : GoStr) :
    (goSplit sep s).length = s.count sep + 1 := by
  induction s with
  | nil => simp [goSplit]
  | cons c rest ih =>
    have hlen : 1 ≤ (goSplit sep rest).length := by
      cases hg : goSplit sep rest with
      | nil => exact absurd hg (goSplit_ne_nil sep rest)
      | cons h t => simp
    by_cases hc : c = sep
    · subst hc
      rw [goSplit_cons_self, List.length_cons, List.count_cons_self]
      omega
    · have hcs : sep ≠ c := fun h1 => hc h1.symm
      rw [goSplit_cons_ne sep c rest hc, List.length_cons, List.length_tail,
        List.count_cons_of_ne hcs]
      omega

theorem goSplit_of_not_mem (sep : Char) (s : GoStr) (h : sep ∉ s) :
    goSplit sep s = [s] := by
  induction s with
  | nil => rfl
  | cons c rest ih =>
    simp only [List.mem_cons, not_or] at h
    have hc : ¬c = sep := fun h1 => h.1 h1.symm
    simp [goSplit, ih h.2, hc]

theorem goSplit_append (sep : Char) (a b : GoStr) (ha : sep ∉ a) :
    goSplit sep (a ++ sep :: b) = a :: goSplit sep b := by
  induction a with
  | nil => simp [goSplit]
  | cons c a ih =>
    simp only [List.mem_cons, not_or] at ha
    have hc : ¬c = sep := fun h1 => ha.1 h1.symm
    simp [goSplit, List.cons_append, ih ha.2, hc]

theorem trimSuffixDot_concat (s : GoStr) : trimSuffixDot (s ++ ['.']) = s := by
  simp [trimSuffixDot, List.getLast?_concat, List.dropLast_concat]

theorem trimSuffixDot_no_dot (s : GoStr) (h : s.getLast? ≠ some '.') :
    trimSuffixDot s = s := if_neg h

theorem trimSuffixDot_of_not_mem (s : GoStr) (h : '.' ∉ s) : trimSuffixDot s = s :=
  trimSuffixDot_no_dot s fun hl => h (List.mem_of_getLast?_eq_some hl)

theorem matchLoop_iff (hostParts : List GoStr) (i : Nat) (ps : List GoStr) :
    matchLoop hostParts i ps = true ↔
      ∀ j, j < ps.length →
        (i + j = 0 ∧ ps.getD j [] = ['*']) ∨ ps.getD j [] = hostParts.getD (i + j) [] := by
  induction ps generalizing i with
  | nil => simp [matchLoop]
  | cons p ps ih =>
    simp only [matchLoop]
    by_cases h0 : i = 0 ∧ p = ['*']
    · rw [if_pos h0, ih]
      constructor
      · intro hrec j hj
        cases j with
        | zero => exact Or.inl ⟨by omega, by simpa using h0.2⟩
        | succ j =>
          rcases hrec j (by simpa using hj) with hl | hr
          · omega
          · refine Or.inr ?_
            have harith : i + (j + 1) = i + 1 + j := by omega
            simpa [harith] using hr
      · intro hall j hj
        rcases hall (j + 1) (by simpa using hj) with hl | hr
        · omega
        · refine Or.inr ?_
          have harith : i + 1 + j = i + (j + 1) := by omega
          simpa [harith] using hr
    · rw [if_neg h0]
      by_cases hp : p = hostParts.getD i []
      · rw [if_neg (by simpa using hp), ih]
        constructor
        · intro hrec j hj
          cases j with
          | zero => exact Or.inr (by simpa using hp)
          | succ j =>
            rcases hrec j (by simpa using hj) with hl | hr
            · omega
            · refine Or.inr ?_
              have harith : i + (j + 1) = i + 1 + j := by omega
              simpa [harith] using hr
        · intro hall j hj
          rcases hall (j + 1) (by simpa using hj) with hl | hr
          · omega
          · refine Or.inr ?_
            have harith : i + 1 + j = i + (j + 1) := by omega
            simpa [harith] using hr
      · rw [if_pos (by simpa using hp)]
        constructor
        · intro hfalse; exact absurd hfalse Bool.false_ne_true
        · intro hall
          rcases hall 0 (by simp) with hl | hr
          · exact absurd (by simpa using hl.2) (fun h2 => h0 ⟨by omega, h2⟩)
          · exact absurd (by simpa using hr) hp

theorem matchTrimmed_iff (p h : GoStr) :
    matchTrimmed p h = true ↔
      p ≠ [] ∧ h ≠ [] ∧ (goSplit '.' p).length = (goSplit '.' h).length ∧
      ∀ i, i < (goSplit '.' p).length →
        (i = 0 ∧ (goSplit '.' p).getD i [] = ['*']) ∨
        (goSplit '.' p).getD i [] = (goSplit '.' h).getD i [] := by
  unfold matchTrimmed
  by_cases hz : p.length = 0 ∨ h.length = 0
  · rw [if_pos hz]
    constructor
    · intro hfalse; exact absurd hfalse Bool.false_ne_true
    · intro hall
      rcases hz with hz | hz
      · exact absurd (List.length_eq_zero.mp hz) hall.1
      · exact absurd (List.length_eq_zero.mp hz) hall.2.1
  · rw [if_neg hz]
    push_neg at hz
    by_cases hl : (goSplit '.' p).length ≠ (goSplit '.' h).length
    · rw [if_pos hl]
      constructor
      · intro hfalse; exact absurd hfalse Bool.false_ne_true
      · intro hall; exact absurd hall.2.2.1 hl
    · rw [if_neg hl]
      push_neg at hl
      rw [matchLoop_iff]
      constructor
      · intro hall
        refine ⟨fun hpe => hz.1 (by simp [hpe]), fun hhe => hz.2 (by simp [hhe]), hl, ?_⟩
        intro i hi
        rcases hall i hi with hle | hri
        · exact Or.inl ⟨by omega, hle.2⟩
        · exact Or.inr (by simpa using hri)
      · intro hall j hj
        rcases hall.2.2.2 j hj with hle | hri
        · exact Or.inl ⟨by omega, hle.2⟩
        · exact Or.inr (by simpa using hri)

/-! ## Claim theorems for the pure string functions -/

/-- C1: `matchHostnames(pattern, host)` returns true iff, after stripping a
single trailing `"."` from each input, both strings are non-empty, splitting
both on `"."` yields equal label counts, and at every label position the
labels are equal, except that a pattern whose first label is exactly `"*"`
matches any first label of the host; the listed wildcard examples hold, and
an empty pattern or host is rejected. -/
theorem matchHostnames_iff_spec :
    (∀ pattern host : GoStr,
        matchHostnames pattern host = true ↔ specMatchHostnames pattern host) ∧
    matchHostnames "*.example.com".toList "foo.example.com".toList = true ∧
    matchHostnames "*.example.com".toList "example.com".toList = false ∧
    matchHostnames "*.example.com".toList "a.b.example.com".toList = false ∧
    (∀ host : GoStr, matchHostnames [] host = false) ∧
    (∀ pattern : GoStr, matchHostnames pattern [] = false) := by
  refine ⟨?_, by decide, by decide, by decide, ?_, ?_⟩
  · intro pattern host
    unfold matchHostnames specMatchHostnames
    exact matchTrimmed_iff _ _
  · intro host
    simp [matchHostnames, matchTrimmed, trimSuffixDot]
  · intro pattern
    simp [matchHostnames, matchTrimmed, trimSuffixDot]

/-- C7: `isHostValid(host, patterns)` is true iff `matchHostnames` succeeds
for at least one pattern in the list, so the result does not depend on the
order of the pattern list; the listed example holds. -/
theorem isHostValid_iff_exists :
    (∀ (host : GoStr) (cns : List GoStr),
        isHostValid host cns = true ↔ ∃ cn ∈ cns, matchHostnames cn host = true) ∧
    (∀ (host : GoStr) (cns cns' : List GoStr), cns.Perm cns' →
        isHostValid host cns = isHostValid host cns') ∧
    isHostValid "foo.example.com".toList
      ["bar.example.com".toList, "*.example.com".toList] = true := by
  have hiff : ∀ (host : GoStr) (cns : List GoStr),
      isHostValid host cns = true ↔ ∃ cn ∈ cns, matchHostnames cn host = true := by
    intro host cns
    induction cns with
    | nil => simp [isHostValid]
    | cons cn cns ih =>
      by_cases hm : matchHostnames cn host = true
      · simp [isHostValid, hm]
      · simp only [Bool.not_eq_true] at hm
        simp [isHostValid, hm, ih]
  refine ⟨hiff, ?_, by decide⟩
  intro host cns cns' hperm
  rw [Bool.eq_iff_iff, hiff, hiff]
  constructor
  · rintro ⟨cn, hmem, hcn⟩; exact ⟨cn, hperm.mem_iff.mp hmem, hcn⟩
  · rintro ⟨cn, hmem, hcn⟩; exact ⟨cn, hperm.mem_iff.mpr hmem, hcn⟩

/-- C7 witness: order independence at a concrete host and pattern pair. -/
theorem isHostValid_iff_exists_witness :
    isHostValid "foo.example.com".toList ["a".toList, "b".toList] =
      isHostValid "foo.example.com".toList ["b".toList, "a".toList] :=
  isHostValid_iff_exists.2.1 "foo.example.com".toList _ _
    (List.Perm.swap "b".toList "a".toList [])

/-- C8 counterexample: appending a trailing dot is *not* always neutral: for
the pattern `"a."` (which already ends in a dot) and the host `"a"` the
original pair matches but the pattern with one more trailing dot does not,
and symmetrically for the host `"a."` with the pattern `"a"`. -/
theorem matchHostnames_trailing_dot_cex :
    matchHostnames "a.".toList "a".toList = true ∧
    matchHostnames ("a.".toList ++ ['.']) "a".toList = false ∧
    matchHostnames "a".toList "a.".toList = true ∧
    matchHostnames "a".toList ("a.".toList ++ ['.']) = false := by decide

/-- C8 (amended): appending a single trailing `"."` to the pattern or to the
host does not change the result of `matchHostnames`, provided that string
does not already end in `"."`; `matchHostnames("example.com.",
"example.com")` is true. -/
theorem matchHostnames_trailing_dot :
    (∀ pattern host : GoStr, pattern.getLast? ≠ some '.' →
        matchHostnames (pattern ++ ['.']) host = matchHostnames pattern host) ∧
    (∀ pattern host : GoStr, host.getLast? ≠ some '.' →
        matchHostnames pattern (host ++ ['.']) = matchHostnames pattern host) ∧
    matchHostnames "example.com.".toList "example.com".toList = true := by
  refine ⟨?_, ?_, by decide⟩
  · intro pattern host hp
    unfold matchHostnames
    rw [trimSuffixDot_concat, trimSuffixDot_no_dot pattern hp]
  · intro pattern host hh
    unfold matchHostnames
    rw [trimSuffixDot_concat, trimSuffixDot_no_dot host hh]

/-- C8 witness: trailing-dot neutrality applied at `"example.com"`. -/
theorem matchHostnames_trailing_dot_witness :
    matchHostnames ("example.com".toList ++ ['.']) "example.com".toList =
      matchHostnames "example.com".toList "example.com".toList ∧
    matchHostnames "example.com".toList ("example.com".toList ++ ['.']) =
      matchHostnames "example.com".toList "example.com".toList :=
  ⟨matchHostnames_trailing_dot.1 "example.com".toList "example.com".toList (by decide),
   matchHostnames_trailing_dot.2.1 "example.com".toList "example.com".toList (by decide)⟩

/-- C10: the wildcard is special only as the whole leftmost label: a bare
`"*"` pattern matches any non-empty dot-free host, while a `"*"` label in a
non-leftmost position only ever matches a host whose label at that position
is literally `"*"`; the two examples hold. -/
theorem matchHostnames_wildcard_leftmost :
    (∀ host : GoStr, host ≠ [] → '.' ∉ host → matchHostnames ['*'] host = true) ∧
    (∀ (pattern host : GoStr) (i : Nat), 0 < i →
        matchHostnames pattern host = true →
        (goSplit '.' (trimSuffixDot pattern)).getD i [] = ['*'] →
        (goSplit '.' (trimSuffixDot host)).getD i [] = ['*']) ∧
    matchHostnames "foo.*".toList "foo.bar".toList = false ∧
    matchHostnames "foo.*".toList "foo.*".toList = true := by
  refine ⟨?_, ?_, by decide, by decide⟩
  · intro host hne hdot
    have hsplit : goSplit '.' host = [host] := goSplit_of_not_mem '.' host hdot
    unfold matchHostnames
    rw [trimSuffixDot_of_not_mem host hdot]
    rw [show trimSuffixDot ['*'] = ['*'] from rfl]
    rw [matchTrimmed_iff]
    refine ⟨by simp, hne, ?_, ?_⟩
    · rw [hsplit]; rfl
    · intro i hi
      have hone : (goSplit '.' ['*']).length = 1 := rfl
      have hi0 : i = 0 := by omega
      subst hi0
      exact Or.inl ⟨rfl, rfl⟩
  · intro pattern host i hipos hmatch hstar
    unfold matchHostnames at hmatch
    have hiff := (matchTrimmed_iff (trimSuffixDot pattern) (trimSuffixDot host)).mp hmatch
    rcases hiff with ⟨-, -, hlen, hall⟩
    by_cases hilen : i < (goSplit '.' (trimSuffixDot pattern)).length
    · rcases hall i hilen with hl | hr
      · exact absurd hl.1 (by omega)
      · rw [← hr]; exact hstar
    · rw [List.getD_eq_default] at hstar
      · exact absurd hstar (by decide)
      · omega

/-- C10 witness: the bare wildcard matches a concrete single-label host. -/
theorem matchHostnames_wildcard_leftmost_witness :
    matchHostnames ['*'] "localhost".toList = true :=
  matchHostnames_wildcard_leftmost.1 "localhost".toList (by decide) (by decide)

/-- C6: `parseNsName` returns the substrings before and after the `"/"` when
the input contains exactly one separator, and an error naming the offending
input otherwise; the three listed examples hold. -/
theorem parseNsName_spec :
    (∀ a b : GoStr, '/' ∉ a → '/' ∉ b → parseNsName (a ++ '/' :: b) = .ok (a, b)) ∧
    (∀ input : GoStr, input.count '/' ≠ 1 →
        parseNsName input =
          .error ("invalid format (namespace/name) found in ".toList ++ input)) ∧
    parseNsName "default/my-ingress".toList =
      .ok ("default".toList, "my-ingress".toList) ∧
    parseNsName "bad-input".toList =
      .error ("invalid format (namespace/name) found in ".toList ++ "bad-input".toList) ∧
    parseNsName "a/b/c".toList =
      .error ("invalid format (namespace/name) found in ".toList ++ "a/b/c".toList) := by
  refine ⟨?_, ?_, by rfl, by rfl, by rfl⟩
  · intro a b ha hb
    unfold parseNsName
    rw [goSplit_append '/' a b ha, goSplit_of_not_mem '/' b hb]
    rfl
  · intro input hcount
    unfold parseNsName
    have h2 : (goSplit '/' input).length ≠ 2 := by
      rw [goSplit_length]; omega
    rw [if_pos h2]

/-- C6 witness: splitting and rejecting at concrete inputs. -/
theorem parseNsName_spec_witness :
    parseNsName ("kube-system".toList ++ '/' :: "dns".toList) =
      .ok ("kube-system".toList, "dns".toList) ∧
    parseNsName "nosep".toList =
      .error ("invalid format (namespace/name) found in ".toList ++ "nosep".toList) :=
  ⟨parseNsName_spec.1 "kube-system".toList "dns".toList (by decide) (by decide),
   parseNsName_spec.2.1 "nosep".toList (by decide)⟩

/-- C9: `getFakeSSLCert` reads the certificate path and then the key path
and returns both contents; if either read fails it returns the pair of empty
strings, never a partial pair and never an error. -/
theorem getFakeSSLCert_fallback :
    (∀ readFile : String → Option GoStr,
        readFile snakeOilPem = none ∨ readFile snakeOilKey = none →
        getFakeSSLCert readFile = ([], [])) ∧
    (∀ (readFile : String → Option GoStr) (cert key : GoStr),
        readFile snakeOilPem = some cert → readFile snakeOilKey = some key →
        getFakeSSLCert readFile = (cert, key)) := by
  constructor
  · intro readFile hnone
    rcases hnone with hn | hn
    · unfold getFakeSSLCert
      rw [hn]
    · unfold getFakeSSLCert
      cases hp : readFile snakeOilPem with
      | none => rfl
      | some cert => rw [hn]
  · intro readFile cert key hp hk
    unfold getFakeSSLCert
    rw [hp, hk]

/-- C9 witness: the all-failing and all-succeeding filesystems. -/
theorem getFakeSSLCert_fallback_witness :
    getFakeSSLCert (fun _ => none) = ([], []) ∧
    getFakeSSLCert (fun _ => some ['x']) = (['x'], ['x']) :=
  ⟨getFakeSSLCert_fallback.1 (fun _ => none) (Or.inl rfl),
   getFakeSSLCert_fallback.2 (fun _ => some ['x']) ['x'] ['x'] rfl rfl⟩

/-! ## Lemmas about the work-queue model -/

theorem add_failures (q : WorkQueue) (key : String) :
    (q.add key).failures = q.failures := by
  unfold WorkQueue.add
  split <;> rfl

theorem add_shuttingDown (q : WorkQueue) (key : String) :
    (q.add key).shuttingDown = q.shuttingDown := by
  unfold WorkQueue.add
  split <;> rfl

theorem mem_add (q : WorkQueue) (key : String) : key ∈ (q.add key).pending := by
  unfold WorkQueue.add
  split
  · assumption
  · simp

theorem forget_shuttingDown (q : WorkQueue) (key : String) :
    (q.forget key).shuttingDown = q.shuttingDown := rfl

theorem forget_pending (q : WorkQueue) (key : String) :
    (q.forget key).pending = q.pending := rfl

theorem forget_failures_self (q : WorkQueue) (key : String) :
    (q.forget key).failures key = 0 := by
  simp [WorkQueue.forget]

theorem requeue_shuttingDown (base maxDelay : Nat) (q : WorkQueue) (key : String) :
    (requeue base maxDelay q key).shuttingDown = q.shuttingDown := by
  unfold requeue WorkQueue.addRateLimited
  exact add_shuttingDown _ _

theorem requeue_failures_self (base maxDelay : Nat) (q : WorkQueue) (key : String) :
    (requeue base maxDelay q key).failures key = q.failures key + 1 := by
  unfold requeue WorkQueue.addRateLimited
  rw [add_failures]
  simp

theorem mem_requeue (base maxDelay : Nat) (q : WorkQueue) (key : String) :
    key ∈ (requeue base maxDelay q key).pending := by
  unfold requeue WorkQueue.addRateLimited
  exact mem_add _ _

theorem get_quit_iff (q : WorkQueue) :
    q.get = GetResult.quit ↔ q.pending = [] ∧ q.shuttingDown = true := by
  unfold WorkQueue.get
  cases hp : q.pending with
  | nil => by_cases hs : q.shuttingDown <;> simp [hs]
  | cons k rest => simp

theorem get_item (q : WorkQueue) (key : String) (q' : WorkQueue)
    (h : q.get = .item key q') :
    q.pending = key :: q'.pending ∧ q'.shuttingDown = q.shuttingDown ∧
    q'.failures = q.failures := by
  unfold WorkQueue.get at h
  cases hp : q.pending with
  | nil =>
    rw [hp] at h
    by_cases hs : q.shuttingDown <;> simp [hs] at h
  | cons k rest =>
    rw [hp] at h
    cases h
    exact ⟨rfl, rfl, rfl⟩

theorem workerStep_exit_iff (base maxDelay : Nat) (sync : String → Bool)
    (s s' : TaskState) :
    workerStep base maxDelay sync s = .exit s' ↔
      s.q.pending = [] ∧ s.q.shuttingDown = true ∧
      s' = { s with workerDone := true } := by
  cases hg : s.q.get with
  | quit =>
    have hq := (get_quit_iff s.q).mp hg
    simp only [workerStep, hg]
    constructor
    · intro h
      cases h
      exact ⟨hq.1, hq.2, rfl⟩
    · intro h
      rw [h.2.2]
  | wait =>
    simp only [workerStep, hg]
    constructor
    · intro h
      exact StepResult.noConfusion h
    · intro h
      have hq : s.q.get = GetResult.quit := (get_quit_iff s.q).mpr ⟨h.1, h.2.1⟩
      rw [hg] at hq
      exact GetResult.noConfusion hq
  | item key q' =>
    have hp := (get_item s.q key q' hg).1
    simp only [workerStep, hg]
    constructor
    · intro h
      split at h <;> exact StepResult.noConfusion h
    · intro h
      rw [h.1] at hp
      exact List.noConfusion hp

theorem workerStep_next (base maxDelay : Nat) (sync : String → Bool)
    (s s' : TaskState) (h : workerStep base maxDelay sync s = .next s') :
    s'.q.shuttingDown = s.q.shuttingDown ∧ s'.workerDone = s.workerDone := by
  cases hg : s.q.get with
  | quit =>
    simp only [workerStep, hg] at h
    exact StepResult.noConfusion h
  | wait =>
    simp only [workerStep, hg] at h
    exact StepResult.noConfusion h
  | item key q' =>
    have hq := get_item s.q key q' hg
    simp only [workerStep, hg] at h
    split at h <;> cases h
    · exact ⟨by rw [forget_shuttingDown, hq.2.1], rfl⟩
    · exact ⟨by rw [requeue_shuttingDown, hq.2.1], rfl⟩

theorem workerRun_exited_facts (base maxDelay : Nat) (sync : String → Bool) :
    ∀ (fuel : Nat) (s s' : TaskState), s.q.shuttingDown = true →
      workerRun base maxDelay sync fuel s = .exited s' →
      s'.workerDone = true ∧ s'.q.pending = [] ∧ s'.q.shuttingDown = true := by
  intro fuel
  induction fuel with
  | zero =>
    intro s s' hsd h
    simp only [workerRun] at h
    exact RunResult.noConfusion h
  | succ fuel ih =>
    intro s s' hsd h
    simp only [workerRun] at h
    cases hstep : workerStep base maxDelay sync s with
    | exit s2 =>
      simp only [hstep] at h
      cases h
      obtain ⟨hp, hsd2, hs2⟩ := (workerStep_exit_iff base maxDelay sync s _).mp hstep
      subst hs2
      exact ⟨rfl, hp, hsd2⟩
    | wait =>
      simp only [hstep] at h
      exact RunResult.noConfusion h
    | next s2 =>
      simp only [hstep] at h
      have hsd2 : s2.q.shuttingDown = true := by
        rw [(workerStep_next base maxDelay sync s s2 hstep).1, hsd]
      exact ih s2 s' hsd2 h

theorem workerRun_drain (base maxDelay : Nat) :
    ∀ (pending : List String) (s : TaskState),
      s.q.pending = pending → s.q.shuttingDown = true →
      ∃ s', workerRun base maxDelay (fun _ => true) (pending.length + 1) s = .exited s' ∧
            s'.syncLog = s.syncLog ++ pending := by
  intro pending
  induction pending with
  | nil =>
    intro s hp hsd
    refine ⟨{ s with workerDone := true }, ?_, by simp⟩
    have hq : s.q.get = GetResult.quit := (get_quit_iff s.q).mpr ⟨hp, hsd⟩
    simp only [workerRun, workerStep, hq]
  | cons k rest ih =>
    intro s hp hsd
    have hg : s.q.get = GetResult.item k { s.q with pending := rest } := by
      simp only [WorkQueue.get, hp]
    obtain ⟨s', hrun, hlog⟩ := ih
      { s with q := WorkQueue.forget { s.q with pending := rest } k,
               syncLog := s.syncLog ++ [k] } rfl hsd
    have hstep : workerStep base maxDelay (fun _ => true) s =
        .next { s with q := WorkQueue.forget { s.q with pending := rest } k,
                       syncLog := s.syncLog ++ [k] } := by
      simp [workerStep, hg]
    refine ⟨s', ?_, ?_⟩
    · show workerRun base maxDelay (fun _ => true) (rest.length + 1 + 1) s = .exited s'
      simp only [workerRun, hstep]
      exact hrun
    · rw [hlog]
      simp

/-! ## Claim theorems for the task queue -/

/-- C2: after `shutdown()` returns (it blocks on the one-shot `workerDone`
signal, which the worker closes only on the quit branch), the worker loop
has exited and performs no further sync invocations: any worker run from the
shut-down state that exits ends in a state where `workerDone` is closed, a
`get` returns quit at once, and the only possible further step is an
immediate exit that invokes no sync; moreover `ShutDown` makes a blocked
`get` return quit, `workerDone` never closes on a non-quit iteration, and
with an error-free sync the drained worker does exit. -/
theorem shutdown_quiesces :
    (∀ (base maxDelay : Nat) (sync : String → Bool) (fuel : Nat) (s s' : TaskState),
        workerRun base maxDelay sync fuel (shutdownStart s) = .exited s' →
        s'.workerDone = true ∧ s'.q.get = GetResult.quit ∧
        workerStep base maxDelay sync s' = .exit s') ∧
    (∀ q : WorkQueue, q.pending = [] → q.shutDown.get = GetResult.quit) ∧
    (∀ (base maxDelay : Nat) (sync : String → Bool) (s s' : TaskState),
        workerStep base maxDelay sync s = .next s' → s'.workerDone = s.workerDone) ∧
    (∀ (base maxDelay : Nat) (sync : String → Bool) (s s' : TaskState),
        workerStep base maxDelay sync s = .exit s' →
        s.q.get = GetResult.quit ∧ s'.workerDone = true) ∧
    (∀ (base maxDelay : Nat) (s : TaskState),
        ∃ s', workerRun base maxDelay (fun _ => true) (s.q.pending.length + 1)
                (shutdownStart s) = .exited s' ∧
              s'.syncLog = s.syncLog ++ s.q.pending) := by
  refine ⟨?_, ?_, ?_, ?_, ?_⟩
  · intro base maxDelay sync fuel s s' hrun
    obtain ⟨hdone, hpend, hsd⟩ :=
      workerRun_exited_facts base maxDelay sync fuel (shutdownStart s) s' rfl hrun
    have hquit : s'.q.get = GetResult.quit := (get_quit_iff s'.q).mpr ⟨hpend, hsd⟩
    have hself : { s' with workerDone := true } = s' := by
      cases s' with
      | mk q wd log => rw [show wd = true from hdone]
    refine ⟨hdone, hquit, ?_⟩
    exact (workerStep_exit_iff base maxDelay sync s' s').mpr ⟨hpend, hsd, hself.symm⟩
  · intro q hp
    exact (get_quit_iff q.shutDown).mpr ⟨hp, rfl⟩
  · intro base maxDelay sync s s' h
    exact (workerStep_next base maxDelay sync s s' h).2
  · intro base maxDelay sync s s' h
    obtain ⟨hp, hsd, hs'⟩ := (workerStep_exit_iff base maxDelay sync s s').mp h
    refine ⟨(get_quit_iff s.q).mpr ⟨hp, hsd⟩, ?_⟩
    rw [hs']
  · intro base maxDelay s
    exact workerRun_drain base maxDelay s.q.pending (shutdownStart s) rfl rfl

/-- C2 witness: shutting down an idle queue lets the worker exit with
`workerDone` closed and the queue reporting quit. -/
theorem shutdown_quiesces_witness :
    doneTask.workerDone = true ∧ doneTask.q.get = GetResult.quit ∧
    workerStep 1 1000 (fun _ => true) doneTask = .exit doneTask :=
  shutdown_quiesces.1 1 1000 (fun _ => true) 1 initialTask doneTask (by rfl)

/-- C3: in every worker iteration, a sync error requeues the key through the
rate-limited path and the loop continues; a successful sync clears the key's
failure state with `Forget`; and the loop exits only when `get` reports the
quit signal. -/
theorem worker_error_handling :
    (∀ (base maxDelay : Nat) (sync : String → Bool) (s : TaskState)
        (key : String) (q' : WorkQueue),
        s.q.get = GetResult.item key q' → sync key = false →
        workerStep base maxDelay sync s =
          .next { s with q := requeue base maxDelay q' key,
                         syncLog := s.syncLog ++ [key] } ∧
        key ∈ (requeue base maxDelay q' key).pending ∧
        (requeue base maxDelay q' key).failures key = q'.failures key + 1) ∧
    (∀ (base maxDelay : Nat) (sync : String → Bool) (s : TaskState)
        (key : String) (q' : WorkQueue),
        s.q.get = GetResult.item key q' → sync key = true →
        workerStep base maxDelay sync s =
          .next { s with q := q'.forget key, syncLog := s.syncLog ++ [key] } ∧
        (q'.forget key).failures key = 0) ∧
    (∀ (base maxDelay : Nat) (sync : String → Bool) (s s' : TaskState),
        workerStep base maxDelay sync s = .exit s' → s.q.get = GetResult.quit) := by
  refine ⟨?_, ?_, ?_⟩
  · intro base maxDelay sync s key q' hg hsync
    refine ⟨?_, mem_requeue base maxDelay q' key, requeue_failures_self base maxDelay q' key⟩
    simp [workerStep, hg, hsync]
  · intro base maxDelay sync s key q' hg hsync
    refine ⟨?_, forget_failures_self q' key⟩
    simp [workerStep, hg, hsync]
  · intro base maxDelay sync s s' h
    obtain ⟨hp, hsd, -⟩ := (workerStep_exit_iff base maxDelay sync s s').mp h
    exact (get_quit_iff s.q).mpr ⟨hp, hsd⟩

/-- C3 witness: a failing sync on a concrete one-key queue requeues the key
and the loop continues. -/
theorem worker_error_handling_witness :
    workerStep 1 1000 (fun _ => false) oneKeyTask =
      .next { oneKeyTask with
              q := requeue 1 1000 { oneKeyTask.q with pending := [] } "a",
              syncLog := oneKeyTask.syncLog ++ ["a"] } ∧
    "a" ∈ (requeue 1 1000 { oneKeyTask.q with pending := [] } "a").pending ∧
    (requeue 1 1000 { oneKeyTask.q with pending := [] } "a").failures "a" =
      ({ oneKeyTask.q with pending := [] } : WorkQueue).failures "a" + 1 :=
  worker_error_handling.1 1 1000 (fun _ => false) oneKeyTask "a"
    { oneKeyTask.q with pending := [] } (by rfl) (by rfl)

/-- C4: a requeue's redelivery delay is `min (base * 2 ^ failureCount)
maxDelay`, tracked per key: the delay depends only on that key's failure
count (so no state shared with other keys throttles it), `AddRateLimited`
bumps only the requeued key's counter, and a successful sync clears the
key's failure counter via `Forget`. -/
theorem requeue_backoff :
    (∀ (base maxDelay : Nat) (q : WorkQueue) (key : String),
        requeue base maxDelay q key = (q.addRateLimited base maxDelay key).1) ∧
    (∀ (base maxDelay : Nat) (q : WorkQueue) (key : String),
        (q.addRateLimited base maxDelay key).2 =
          min (base * 2 ^ q.failures key) maxDelay) ∧
    (∀ (base maxDelay : Nat) (q q2 : WorkQueue) (key : String),
        q.failures key = q2.failures key →
        (q.addRateLimited base maxDelay key).2 =
          (q2.addRateLimited base maxDelay key).2) ∧
    (∀ (base maxDelay : Nat) (q : WorkQueue) (key k : String),
        (q.addRateLimited base maxDelay key).1.failures k =
          if k = key then q.failures k + 1 else q.failures k) ∧
    (∀ (q : WorkQueue) (key k : String),
        (q.forget key).failures k = if k = key then 0 else q.failures k) ∧
    (∀ (base maxDelay : Nat) (sync : String → Bool) (s : TaskState)
        (key : String) (q' : WorkQueue),
        s.q.get = GetResult.item key q' → sync key = true →
        (workerStep base maxDelay sync s =
          .next { s with q := q'.forget key, syncLog := s.syncLog ++ [key] } ∧
         (q'.forget key).failures key = 0)) := by
  refine ⟨fun _ _ _ _ => rfl, fun _ _ _ _ => rfl, ?_, ?_, ?_, ?_⟩
  · intro base maxDelay q q2 key hfail
    show min (base * 2 ^ q.failures key) maxDelay =
      min (base * 2 ^ q2.failures key) maxDelay
    rw [hfail]
  · intro base maxDelay q key k
    rw [show (q.addRateLimited base maxDelay key).1 = WorkQueue.add
          { q with failures := fun j => if j = key then q.failures key + 1
                                        else q.failures j } key from rfl,
        add_failures]
    by_cases hk : k = key
    · subst hk; simp
    · simp [hk]
  · intro q key k
    by_cases hk : k = key
    · subst hk; simp [WorkQueue.forget]
    · simp [WorkQueue.forget, hk]
  · intro base maxDelay sync s key q' hg hsync
    refine ⟨?_, forget_failures_self q' key⟩
    simp [workerStep, hg, hsync]

/-- C4 witness: the delay of key `"a"` is unaffected by a different pending
key, and a successful sync step clears `"a"`'s failure count. -/
theorem requeue_backoff_witness :
    (emptyQueue.addRateLimited 5 1000 "a").2 =
      (({ pending := ["b"], shuttingDown := false, failures := fun _ => 0 } :
          WorkQueue).addRateLimited 5 1000 "a").2 ∧
    workerStep 5 1000 (fun _ => true) oneKeyTask =
      .next { oneKeyTask with
              q := WorkQueue.forget { oneKeyTask.q with pending := [] } "a",
              syncLog := oneKeyTask.syncLog ++ ["a"] } ∧
    (WorkQueue.forget { oneKeyTask.q with pending := [] } "a").failures "a" = 0 :=
  ⟨requeue_backoff.2.2.1 5 1000 emptyQueue
      { pending := ["b"], shuttingDown := false, failures := fun _ => 0 } "a" rfl,
   requeue_backoff.2.2.2.2.2 5 1000 (fun _ => true) oneKeyTask "a"
      { oneKeyTask.q with pending := [] } (by rfl) (by rfl)⟩

/-- C5: enqueuing the same key `n ≥ 1` times before it is dequeued leaves
exactly one pending occurrence of that key; `enqueue` reduces to `Add` when
the key function succeeds and is a no-op when it fails. -/
theorem enqueue_dedup :
    (∀ (q : WorkQueue) (key : String) (n : Nat), 1 ≤ n → q.pending.count key = 0 →
        (addTimes q key n).pending.count key = 1) ∧
    (∀ (α : Type) (keyOf : α → Option String) (q : WorkQueue) (obj : α) (key : String),
        keyOf obj = some key → enqueue keyOf q obj = q.add key) ∧
    (∀ (α : Type) (keyOf : α → Option String) (q : WorkQueue) (obj : α),
        keyOf obj = none → enqueue keyOf q obj = q) := by
  refine ⟨?_, ?_, ?_⟩
  · intro q key n hn h0
    induction n with
    | zero => omega
    | succ n ih =>
      by_cases hn0 : n = 0
      · subst hn0
        have hnotmem : key ∉ q.pending := List.count_eq_zero.mp h0
        show (WorkQueue.add (addTimes q key 0) key).pending.count key = 1
        unfold WorkQueue.add addTimes
        rw [if_neg hnotmem]
        simp [List.count_append, h0]
      · have h1 := ih (by omega)
        have hmem : key ∈ (addTimes q key n).pending := by
          rw [← List.count_pos_iff, h1]
          omega
        show (WorkQueue.add (addTimes q key n) key).pending.count key = 1
        unfold WorkQueue.add
        rw [if_pos hmem]
        exact h1
  · intro α keyOf q obj key hk
    unfold enqueue
    rw [hk]
  · intro α keyOf q obj hk
    unfold enqueue
    rw [hk]

/-- C5 witness: three enqueues of `"a"` into the empty queue leave one
pending occurrence. -/
theorem enqueue_dedup_witness :
    (addTimes emptyQueue "a" 3).pending.count "a" = 1 ∧
    enqueue (fun s : String => some s) emptyQueue "a" = emptyQueue.add "a" :=
  ⟨enqueue_dedup.1 emptyQueue "a" 3 (by omega) rfl,
   enqueue_dedup.2.1 String (fun s => some s) emptyQueue "a" "a" rfl⟩

example : matchHostnames "*.example.com".toList "foo.example.com".toList = true := by decide
example : matchHostnames "*.example.com".toList "example.com".toList = false := by decide
example : matchHostnames "*.example.com".toList "a.b.example.com".toList = false := by decide
example : matchHostnames "example.com.".toList "example.com".toList = true := by decide
example : matchHostnames "a.".toList "a".toList = true := by decide
example : matchHostnames "a..".toList "a".toList = false := by decide
example : parseNsName "default/my-ingress".toList =
    .ok ("default".toList, "my-ingress".toList) := by rfl
example : (parseNsName "a/b/c".toList).isOk = false := by decide

end ContribNginx
